/-
Verification of the surveyCTOprover fingerprinting engine and proof matcher
(`verify.go`) against its natural-language specification.

Bytes are modelled as `Nat` values (< 256 where it matters), byte strings as
`List Nat`.  SHA-256 (Go `crypto/sha256`, used via the repository's
`sha256Bytes` wrapper) is implemented in full so that concrete digests can be
evaluated by the kernel.
-/
import Mathlib

namespace SurveyCTOProver

set_option maxRecDepth 4000000

/-! ## SHA-256 (model of Go `crypto/sha256`), word level -/

/-- 32-bit addition modulo 2^32 (Go `uint32` arithmetic). -/
def add32 (a b : Nat) : Nat := (a + b) % 4294967296

/-- 32-bit right rotation. -/
def rotr32 (n x : Nat) : Nat := ((x >>> n) ||| (x <<< (32 - n))) % 4294967296

/-- Three-way xor. -/
def xor3 (a b c : Nat) : Nat := Nat.xor (Nat.xor a b) c

def bigSigma0 (x : Nat) : Nat := xor3 (rotr32 2 x) (rotr32 13 x) (rotr32 22 x)

def bigSigma1 (x : Nat) : Nat := xor3 (rotr32 6 x) (rotr32 11 x) (rotr32 25 x)

def smallSigma0 (x : Nat) : Nat := xor3 (rotr32 7 x) (rotr32 18 x) (x >>> 3)

def smallSigma1 (x : Nat) : Nat := xor3 (rotr32 17 x) (rotr32 19 x) (x >>> 10)

def chFn (e f g : Nat) : Nat := Nat.xor (Nat.land e f) (Nat.land (Nat.xor e 4294967295) g)

def majFn (a b c : Nat) : Nat := xor3 (Nat.land a b) (Nat.land a c) (Nat.land b c)

/-- The SHA-256 round constants. -/
def sha256K : List Nat :=
  [1116352408, 1899447441, 3049323471, 3921009573,
   961987163, 1508970993, 2453635748, 2870763221,
   3624381080, 310598401, 607225278, 1426881987,
   1925078388, 2162078206, 2614888103, 3248222580,
   3835390401, 4022224774, 264347078, 604807628,
   770255983, 1249150122, 1555081692, 1996064986,
   2554220882, 2821834349, 2952996808, 3210313671,
   3336571891, 3584528711, 113926993, 338241895,
   666307205, 773529912, 1294757372, 1396182291,
   1695183700, 1986661051, 2177026350, 2456956037,
   2730485921, 2820302411, 3259730800, 3345764771,
   3516065817, 3600352804, 4094571909, 275423344,
   430227734, 506948616, 659060556, 883997877,
   958139571, 1322822218, 1537002063, 1747873779,
   1955562222, 2024104815, 2227730452, 2361852424,
   2428436474, 2756734187, 3204031479, 3329325298]

/-- The eight 32-bit words of the SHA-256 working state. -/
structure Hash8 where
  a : Nat
  b : Nat
  c : Nat
  d : Nat
  e : Nat
  f : Nat
  g : Nat
  h : Nat
deriving Repr, DecidableEq

def sha256Init : Hash8 :=
  ⟨1779033703, 3144134277, 1013904242, 2773480762, 1359893119, 2600822924, 528734635, 1541459225⟩

/-- One SHA-256 round: `kw` is the pair (round constant, schedule word). -/
def roundStep (st : Hash8) (kw : Nat × Nat) : Hash8 :=
  let t1 := add32 (add32 (add32 st.h (bigSigma1 st.e)) (add32 (chFn st.e st.f st.g) kw.1)) kw.2
  let t2 := add32 (bigSigma0 st.a) (majFn st.a st.b st.c)
  ⟨add32 t1 t2, st.a, st.b, st.c, add32 st.d t1, st.e, st.f, st.g⟩

/-- Big-endian 32-bit words from a list of bytes. -/
def toWords : List Nat → List Nat
  | b0 :: b1 :: b2 :: b3 :: rest => (b0 * 16777216 + b1 * 65536 + b2 * 256 + b3) :: toWords rest
  | _ => []

/-- Append the next message-schedule word. -/
def scheduleStep (w : List Nat) : List Nat :=
  let i := w.length
  w ++ [add32 (add32 (smallSigma1 (w.getD (i - 2) 0)) (w.getD (i - 7) 0))
          (add32 (smallSigma0 (w.getD (i - 15) 0)) (w.getD (i - 16) 0))]

/-- Compress one 64-byte block into the state. -/
def compress (st : Hash8) (block : List Nat) : Hash8 :=
  let w := (List.range 48).foldl (fun acc _ => scheduleStep acc) (toWords block)
  let fin := (sha256K.zip w).foldl roundStep st
  ⟨add32 st.a fin.a, add32 st.b fin.b, add32 st.c fin.c, add32 st.d fin.d,
   add32 st.e fin.e, add32 st.f fin.f, add32 st.g fin.g, add32 st.h fin.h⟩

/-- Big-endian bytes of a 64-bit length field. -/
def be64 (n : Nat) : List Nat :=
  [n / 72057594037927936 % 256, n / 281474976710656 % 256, n / 1099511627776 % 256,
   n / 4294967296 % 256, n / 16777216 % 256, n / 65536 % 256, n / 256 % 256, n % 256]

/-- Big-endian bytes of a 32-bit word. -/
def be32 (n : Nat) : List Nat := [n / 16777216 % 256, n / 65536 % 256, n / 256 % 256, n % 256]

/-- SHA-256 padding: 0x80, zeros to 56 mod 64, then the bit length. -/
def padMessage (msg : List Nat) : List Nat :=
  msg ++ 128 :: (List.replicate ((120 - (msg.length + 1) % 64) % 64) 0 ++ be64 (8 * msg.length))

/-- Split a byte list into 64-byte blocks.  Fuel-indexed so that the kernel can
reduce it; the fuel (the list length) always suffices since each step consumes
at least one element. -/
def chunks64Aux : Nat → List Nat → List (List Nat)
  | _, [] => []
  | 0, _ :: _ => []
  | fuel + 1, a :: rest => (a :: rest).take 64 :: chunks64Aux fuel ((a :: rest).drop 64)

def chunks64 (l : List Nat) : List (List Nat) := chunks64Aux l.length l

/-- Serialize the final state, big-endian word by word. -/
def stateBytes (st : Hash8) : List Nat :=
  be32 st.a ++ be32 st.b ++ be32 st.c ++ be32 st.d ++ be32 st.e ++ be32 st.f ++ be32 st.g ++ be32 st.h

/-- SHA-256 of a byte list (Go `crypto/sha256.Sum256`). -/
def sha256 (msg : List Nat) : List Nat :=
  stateBytes ((chunks64 (padMessage msg)).foldl compress sha256Init)

/-- `sha256Bytes` from `verify.go`: the repository's wrapper around `sha256.Sum256`. -/
def sha256Bytes (b : List Nat) : List Nat := sha256 b

/-! ## Lowercase hexadecimal rendering (Go `fmt.Sprintf("%x", b)` on a byte slice) -/

/-- One lowercase hex digit (Go's digit table `"0123456789abcdef"`). -/
def hexDigit (n : Nat) : Char := if n < 10 then Char.ofNat (48 + n) else Char.ofNat (87 + n)

/-- The two lowercase hex digits of one byte, high nibble first. -/
def hexByte (b : Nat) : List Char := [hexDigit (b / 16), hexDigit (b % 16)]

/-- Lowercase hex text of a byte list, as produced by `fmt.Sprintf("%x", b)`. -/
def bytesToHexLower (l : List Nat) : String := String.mk (l.flatMap hexByte)

/-- The sixteen lowercase hexadecimal digit characters. -/
def hexLowerChars : List Char := "0123456789abcdef".data

/-! ## Byte-wise lexicographic order on byte lists

Go sorts attachment digests with `sort.Slice` using
`strings.Compare(string(cp[i]), string(cp[j])) < 0`, i.e. byte-wise
lexicographic order with shorter-prefix-first.  Any comparison sort with this
order gives the same sorted list (the order is antisymmetric), so we model the
sort with `List.insertionSort`. -/

def byteLexLeB : List Nat → List Nat → Bool
  | [], _ => true
  | _ :: _, [] => false
  | x :: xs, y :: ys => if x < y then true else if y < x then false else byteLexLeB xs ys

def byteLexLe (a b : List Nat) : Prop := byteLexLeB a b = true

instance : DecidableRel byteLexLe := fun a b => by unfold byteLexLe; infer_instance

/-! ## Merkle aggregator (`merkleRoot` from `verify.go`) -/

/-- One pairing pass of the Merkle loop: pair adjacent digests left to right,
duplicating the last digest when the count is odd (`right = left` when
`i+1 >= len(level)`). -/
def merkleLevel : List (List Nat) → List (List Nat)
  | [] => []
  | [x] => [sha256Bytes (x ++ x)]
  | x :: y :: rest => sha256Bytes (x ++ y) :: merkleLevel rest

/-- The `for len(level) > 1` loop of `merkleRoot`.  Fuel-indexed (fuel = list
length) so the kernel can reduce it; each iteration at least halves the level
size, so the fuel always suffices. -/
def merkleLevelsAux : Nat → List (List Nat) → List Nat
  | _, [] => []
  | _, [x] => x
  | 0, x :: _ :: _ => x
  | fuel + 1, x :: y :: rest => merkleLevelsAux fuel (merkleLevel (x :: y :: rest))

def merkleLevels (l : List (List Nat)) : List Nat := merkleLevelsAux l.length l

/-- `merkleRoot` from `verify.go`: all-zero digest for the empty set, otherwise
sort byte-wise lexicographically and fold the pairing loop. -/
def merkleRoot (hashes : List (List Nat)) : List Nat :=
  match hashes with
  | [] => List.replicate 32 0
  | a :: rest => merkleLevels (List.insertionSort byteLexLe (a :: rest))

/-! ## Fingerprint composer (`main` in `verify.go`, lines 180–182) -/

/-- `recordHash := sha256Bytes(append(dataHash, attRoot...))`: SHA-256 of the
raw byte concatenation of the two digests. -/
def recordHash (dataHash attRoot : List Nat) : List Nat :=
  sha256Bytes (dataHash ++ attRoot)

/-- `recordHashHex := fmt.Sprintf("%x", recordHash)`: the value exposed to the
caller, lowercase hex text of the record digest. -/
def recordHashHex (dataHash attRoot : List Nat) : String :=
  bytesToHexLower (recordHash dataHash attRoot)

/-! ## Lexicographic order on strings

Go's `sort.Strings` orders keys by byte-wise comparison of their UTF-8 bytes;
for valid UTF-8 this coincides with code-point order on the character
sequences, which is what we use here. -/

def charListLeB : List Char → List Char → Bool
  | [], _ => true
  | _ :: _, [] => false
  | x :: xs, y :: ys =>
    if x.toNat < y.toNat then true else if y.toNat < x.toNat then false else charListLeB xs ys

def charListLtB : List Char → List Char → Bool
  | [], [] => false
  | [], _ :: _ => true
  | _ :: _, [] => false
  | x :: xs, y :: ys =>
    if x.toNat < y.toNat then true else if y.toNat < x.toNat then false else charListLtB xs ys

def strLe (s t : String) : Prop := charListLeB s.data t.data = true

def strLt (s t : String) : Prop := charListLtB s.data t.data = true

instance : DecidableRel strLe := fun s t => by unfold strLe; infer_instance

instance : DecidableRel strLt := fun s t => by unfold strLt; infer_instance

/-- Order on already-marshalled object entries: by key only. -/
def entryLe (p q : String × Except String String) : Prop := strLe p.1 q.1

/-- Strict order on already-marshalled object entries: by key only. -/
def entryLt (p q : String × Except String String) : Prop := strLt p.1 q.1

instance : DecidableRel entryLe := fun p q => by unfold entryLe; infer_instance

/-! ## Go JSON string encoding (`encoding/json` string escaping)

`json.Marshal` of a string escapes `"` and `\`, renders control characters as
`\n`, `\r`, `\t` or `\u00XX`, HTML-escapes `<`, `>`, `&` as `<`, `>`,
`&` (HTML escaping is on by default in `json.Marshal`), escapes U+2028 and
U+2029, and passes all other characters through. -/

def escapeChar (c : Char) : List Char :=
  if c = '"' then ['\\', '"']
  else if c = '\\' then ['\\', '\\']
  else if c = '\n' then ['\\', 'n']
  else if c = '\r' then ['\\', 'r']
  else if c = '\t' then ['\\', 't']
  else if c.toNat < 32 then ['\\', 'u', '0', '0', hexDigit (c.toNat / 16), hexDigit (c.toNat % 16)]
  else if c = '<' ∨ c = '>' ∨ c = '&' then
    ['\\', 'u', '0', '0', hexDigit (c.toNat / 16), hexDigit (c.toNat % 16)]
  else if c.toNat = 0x2028 ∨ c.toNat = 0x2029 then
    ['\\', 'u', '2', '0', '2', hexDigit (c.toNat % 16)]
  else [c]

/-- Model of `json.Marshal` applied to a Go string. -/
def goQuote (s : String) : String := String.mk ('"' :: (s.data.flatMap escapeChar ++ ['"']))

/-! ## Go JSON number validity (`encoding/json.isValidNumber`)

With `dec.UseNumber()` the decoder yields `json.Number` values, which hold the
original source text of the number.  `json.Marshal` of a `json.Number` checks
that the text matches the JSON number grammar and then writes it verbatim. -/

def isDigitChar (c : Char) : Bool := 48 ≤ c.toNat && c.toNat ≤ 57

def skipDigits : List Char → List Char
  | [] => []
  | c :: rest => if isDigitChar c then skipDigits rest else c :: rest

/-- The optional exponent part followed by end of input. -/
def isValidNumExp : List Char → Bool
  | [] => true
  | [_] => false
  | e :: c :: rest =>
    if e = 'e' ∨ e = 'E' then
      if c = '+' ∨ c = '-' then
        match rest with
        | [] => false
        | r :: rs => (skipDigits (r :: rs)).isEmpty
      else (skipDigits (c :: rest)).isEmpty
    else false

/-- The optional fraction part, then the exponent part. -/
def isValidNumFrac : List Char → Bool
  | '.' :: d :: rest =>
    if isDigitChar d then isValidNumExp (skipDigits rest) else isValidNumExp ('.' :: d :: rest)
  | s => isValidNumExp s

/-- The integer part (after an optional leading minus). -/
def isValidNumInt : List Char → Bool
  | [] => false
  | c :: rest =>
    if c = '0' then isValidNumFrac rest
    else if isDigitChar c then isValidNumFrac (skipDigits rest)
    else false

/-- `encoding/json.isValidNumber`. -/
def isValidNumber (s : String) : Bool :=
  match s.data with
  | [] => false
  | '-' :: rest => isValidNumInt rest
  | l => isValidNumInt l

/-! ## The canonicalizer (`canonicalMarshal` from `verify.go`)

`loadJSONFile` decodes with `dec.UseNumber()`, so the decoded value tree
consists of `map[string]interface{}`, `[]interface{}`, `string`, `json.Number`,
`bool` and `nil` (the `float64` case of the type switch is unreachable in this
pipeline).  `JValue.num` carries the `json.Number` source text.  Mapping values
are association lists with the unique keys of the Go map, listed in some
insertion/iteration order. -/

inductive JValue where
  | obj : List (String × JValue) → JValue
  | arr : List JValue → JValue
  | str : String → JValue
  | num : String → JValue
  | bool : Bool → JValue
  | null : JValue

/-- Join rendered entries with a comma between adjacent ones, as the Go loop
does (it writes a `,` after every entry except the last). -/
def joinComma : List String → String
  | [] => ""
  | [x] => x
  | x :: y :: t => x ++ "," ++ joinComma (y :: t)

/-- The four JSON whitespace characters (insignificant whitespace). -/
def wsChars : List Char := [' ', '\t', '\n', '\r']

/-- Characters that can occur in text accepted by `isValidNumber`. -/
def isNumChar (c : Char) : Bool :=
  isDigitChar c || (c = '.' || c = 'e' || c = 'E' || c = '+' || c = '-')

/-- Collect the rendered `"key":value` entries of an object, surfacing the
first error (in list order) instead, as the Go loop does. -/
def collectObjEntries : List (String × Except String String) → Except String (List String)
  | [] => .ok []
  | (_, .error e) :: _ => .error e
  | (k, .ok s) :: t =>
    match collectObjEntries t with
    | .error e => .error e
    | .ok rest => .ok ((goQuote k ++ ":" ++ s) :: rest)

/-- Assemble a canonical object from its marshalled entries.  The Go code
collects the map's keys, sorts them with `sort.Strings`, and marshals `x[k]`
for each key in sorted order, joining entries with `,` inside `{}`; since map
keys are unique, this equals sorting the (key, marshalled value) pairs by key
(the order is insensitive to which correct comparison sort is used because the
key order is antisymmetric on distinct keys) and both surface the first error
in sorted-key order. -/
def renderObj (l : List (String × Except String String)) : Except String String :=
  match collectObjEntries (List.insertionSort entryLe l) with
  | .error e => .error e
  | .ok parts => .ok ("\x7b" ++ joinComma parts ++ "\x7d")

def collectArrEntries : List (Except String String) → Except String (List String)
  | [] => .ok []
  | .error e :: _ => .error e
  | .ok s :: t =>
    match collectArrEntries t with
    | .error e => .error e
    | .ok rest => .ok (s :: rest)

/-- Assemble a canonical array: element order preserved verbatim, joined with
`,` inside `[]`. -/
def renderArr (l : List (Except String String)) : Except String String :=
  match collectArrEntries l with
  | .error e => .error e
  | .ok parts => .ok ("[" ++ joinComma parts ++ "]")

mutual

/-- `canonicalMarshal` from `verify.go`.  Scalars: strings via `json.Marshal`
string encoding, `true`/`false`/`null` literally, and `json.Number` through the
`default` fallback case, which writes the source text verbatim after the
validity check (an invalid literal is the only error source). -/
def canonicalMarshal : JValue → Except String String
  | .obj kvs => renderObj (marshalPairs kvs)
  | .arr vs => renderArr (marshalList vs)
  | .str s => .ok (goQuote s)
  | .num s =>
    if isValidNumber s then .ok s else .error ("json: invalid number literal " ++ s)
  | .bool b => .ok (if b then "true" else "false")
  | .null => .ok "null"

def marshalPairs : List (String × JValue) → List (String × Except String String)
  | [] => []
  | (k, v) :: t => (k, canonicalMarshal v) :: marshalPairs t

def marshalList : List JValue → List (Except String String)
  | [] => []
  | v :: t => canonicalMarshal v :: marshalList t

end

/-- The value types listed explicitly in the `canonicalMarshal` type switch
(`map[string]interface{}`, `[]interface{}`, `string`, `float64`, `bool`,
`nil`); `json.Number` values are handled only by the `default` fallback. -/
def explicitlySupported : JValue → Bool
  | .obj _ => true
  | .arr _ => true
  | .str _ => true
  | .num _ => false
  | .bool _ => true
  | .null => true

mutual

/-- All `json.Number` literals in the value satisfy the JSON number grammar. -/
def allNumbersValid : JValue → Bool
  | .obj kvs => allNumbersValidPairs kvs
  | .arr vs => allNumbersValidList vs
  | .str _ => true
  | .num s => isValidNumber s
  | .bool _ => true
  | .null => true

def allNumbersValidPairs : List (String × JValue) → Bool
  | [] => true
  | (_, v) :: t => allNumbersValid v && allNumbersValidPairs t

def allNumbersValidList : List JValue → Bool
  | [] => true
  | v :: t => allNumbersValid v && allNumbersValidList t

end

mutual

/-- No string scalar or mapping key in the value contains a space character
(whitespace inside string literals is significant and is the only way a
whitespace byte can reach the canonical output: the control characters among
the JSON whitespace set are escaped by the string encoder). -/
def noSpaceStrings : JValue → Bool
  | .obj kvs => noSpaceStringsPairs kvs
  | .arr vs => noSpaceStringsList vs
  | .str s => s.data.all fun c => c != ' '
  | .num _ => true
  | .bool _ => true
  | .null => true

def noSpaceStringsPairs : List (String × JValue) → Bool
  | [] => true
  | (k, v) :: t => (k.data.all fun c => c != ' ') && noSpaceStrings v && noSpaceStringsPairs t

def noSpaceStringsList : List JValue → Bool
  | [] => true
  | v :: t => noSpaceStrings v && noSpaceStringsList t

end

/-! ## Semantic equality up to mapping key order

`JEquiv v w` holds when `v` and `w` are the same JSON-like value except that
the entries of any mapping, at any nesting level, may be listed in a different
insertion order.  Mapping keys are required to be unique, as they are in a Go
map. -/

mutual

inductive JEquiv : JValue → JValue → Prop where
  | obj {l₁ lmid l₂ : List (String × JValue)} :
      l₁.Perm lmid → JEquivPairs lmid l₂ → (l₁.map Prod.fst).Nodup →
      JEquiv (.obj l₁) (.obj l₂)
  | arr {l₁ l₂ : List JValue} : JEquivList l₁ l₂ → JEquiv (.arr l₁) (.arr l₂)
  | str (s : String) : JEquiv (.str s) (.str s)
  | num (s : String) : JEquiv (.num s) (.num s)
  | bool (b : Bool) : JEquiv (.bool b) (.bool b)
  | null : JEquiv .null .null

inductive JEquivPairs : List (String × JValue) → List (String × JValue) → Prop where
  | nil : JEquivPairs [] []
  | cons {k : String} {v₁ v₂ : JValue} {t₁ t₂ : List (String × JValue)} :
      JEquiv v₁ v₂ → JEquivPairs t₁ t₂ → JEquivPairs ((k, v₁) :: t₁) ((k, v₂) :: t₂)

inductive JEquivList : List JValue → List JValue → Prop where
  | nil : JEquivList [] []
  | cons {v₁ v₂ : JValue} {t₁ t₂ : List JValue} :
      JEquiv v₁ v₂ → JEquivList t₁ t₂ → JEquivList (v₁ :: t₁) (v₂ :: t₂)

end

/-! ## The proof matcher (subscription handler and wait loop of `main`)

The subscription callback receives each delivered `TopicMessage` in delivery
order.  `json.Unmarshal(msg.Contents, &obj)` is the external standard-library
decoder; we model its outcome as part of the delivered event: `parsed = none`
when decoding into `map[string]interface{}` fails, otherwise `some o` with `o`
the decoded top-level object.  A match sets `found` and calls `cancel()`, which
stops further delivery (context cancellation), so delivered-event traces end at
the first match.  The error callback only logs to stderr.  After `<-ctx.Done()`
the program exits 0 when `found`, else exits 3; a failure of the initial
`Subscribe` call exits 1. -/

def lookupVal : List (String × JValue) → String → Option JValue
  | [], _ => none
  | (k, v) :: t, key => if k = key then some v else lookupVal t key

def toLowerASCII (c : Char) : Char :=
  if 65 ≤ c.toNat ∧ c.toNat ≤ 90 then Char.ofNat (c.toNat + 32) else c

/-- `strings.EqualFold`, restricted to ASCII case folding (it coincides with Go
on ASCII arguments; the compared values here are hexadecimal text). -/
def equalFoldASCII (s t : String) : Bool :=
  s.data.map toLowerASCII == t.data.map toLowerASCII

/-- The structured-encoding check: the decoded object's `recordHashHex` field,
type-asserted to `string`, compared case-insensitively with the target. -/
def structuredMatch (o : List (String × JValue)) (target : String) : Bool :=
  match lookupVal o "recordHashHex" with
  | some (.str v) => equalFoldASCII v target
  | _ => false

/-- The raw-encoding check: `fmt.Sprintf("%x", msg.Contents)` compared
case-insensitively with the target. -/
def rawMatch (contents : List Nat) (target : String) : Bool :=
  equalFoldASCII (bytesToHexLower contents) target

inductive MatchKind where
  | json
  | raw
deriving DecidableEq, Repr

/-- The subscription callback of `main` on one delivered message: try the
structured match when the payload decoded as an object, otherwise (or when the
structured match fails) fall back to the raw-bytes hex comparison; a message
matching neither is discarded without error. -/
def handleMessage (parsed : Option (List (String × JValue))) (contents : List Nat)
    (target : String) : Option MatchKind :=
  match parsed with
  | some o =>
    if structuredMatch o target then some .json
    else if rawMatch contents target then some .raw
    else none
  | none => if rawMatch contents target then some .raw else none

/-- An event observed by the matcher before its deadline: a delivered message
(with the outcome of `json.Unmarshal` on its contents) or an invocation of the
error callback. -/
inductive LogEvent where
  | msg (parsed : Option (List (String × JValue))) (contents : List Nat) (seq : Nat)
  | streamErr

inductive MatcherOutcome where
  | found (seq : Nat) (kind : MatchKind)
  | timedOut
  | subscribeFailed
deriving DecidableEq, Repr

/-- Process the delivered events in order, also counting how many events are
delivered before the matcher stops: a matching message sets `found`, prints its
sequence number, and cancels the subscription (no later event is delivered);
the error callback only logs; when the events are exhausted (deadline) the
outcome is `found`/`timedOut` by the flag, mapping to exit codes 0 and 3. -/
def runMatcherCount (target : String) : List LogEvent → MatcherOutcome × Nat
  | [] => (.timedOut, 0)
  | .streamErr :: rest =>
    let r := runMatcherCount target rest
    (r.1, r.2 + 1)
  | .msg parsed contents seq :: rest =>
    match handleMessage parsed contents target with
    | some k => (.found seq k, 1)
    | none =>
      let r := runMatcherCount target rest
      (r.1, r.2 + 1)

def runMatcher (target : String) (events : List LogEvent) : MatcherOutcome :=
  (runMatcherCount target events).1

/-- The whole search phase of `main`: a failed initial `Subscribe` call is a
distinct outcome (exit 1); otherwise the delivered events decide it. -/
def matcherOutcome (subscribeOk : Bool) (target : String) (events : List LogEvent) :
    MatcherOutcome :=
  if subscribeOk then runMatcher target events else .subscribeFailed

/-- `e` is a delivered message (as opposed to an error-callback invocation). -/
def isMsgEvent : LogEvent → Bool
  | .msg _ _ _ => true
  | .streamErr => false

instance : DecidableEq (Except String String) := fun a b =>
  match a, b with
  | .ok a, .ok b =>
    if h : a = b then isTrue (by rw [h]) else isFalse fun hc => h (Except.ok.inj hc)
  | .error a, .error b =>
    if h : a = b then isTrue (by rw [h]) else isFalse fun hc => h (Except.error.inj hc)
  | .ok _, .error _ => isFalse fun h => Except.noConfusion h
  | .error _, .ok _ => isFalse fun h => Except.noConfusion h

/-! ### Basic facts about SHA-256 output shape -/

theorem stateBytes_length (st : Hash8) : (stateBytes st).length = 32 := by
  simp [stateBytes, be32]

theorem sha256_length (msg : List Nat) : (sha256 msg).length = 32 :=
  stateBytes_length _

theorem mem_be32_lt (n : Nat) : ∀ x ∈ be32 n, x < 256 := by
  simp only [be32, List.mem_cons, List.not_mem_nil, or_false]
  rintro x (rfl | rfl | rfl | rfl) <;> exact Nat.mod_lt _ (by norm_num)

theorem mem_stateBytes_lt (st : Hash8) : ∀ x ∈ stateBytes st, x < 256 := by
  intro x hx
  simp only [stateBytes, List.mem_append] at hx
  rcases hx with ((((((hx | hx) | hx) | hx) | hx) | hx) | hx) | hx <;>
    exact mem_be32_lt _ _ hx

theorem sha256_bytes_lt (msg : List Nat) : ∀ x ∈ sha256 msg, x < 256 :=
  mem_stateBytes_lt _

/-! ### Lemmas about hexadecimal rendering -/

theorem hexDigit_mem (n : Nat) (hn : n < 16) : hexDigit n ∈ hexLowerChars := by
  interval_cases n <;> decide

theorem bytesToHexLower_length (l : List Nat) : (bytesToHexLower l).length = 2 * l.length := by
  induction l with
  | nil => rfl
  | cons b t ih =>
    simp only [bytesToHexLower, String.length, List.flatMap_cons, hexByte] at *
    simp [ih]
    omega

theorem bytesToHexLower_mem (l : List Nat) (hl : ∀ b ∈ l, b < 256) :
    ∀ c ∈ (bytesToHexLower l).data, c ∈ hexLowerChars := by
  induction l with
  | nil => intro c hc; simp [bytesToHexLower] at hc
  | cons b t ih =>
    intro c hc
    have hb : b < 256 := hl b (List.mem_cons_self _ _)
    simp only [bytesToHexLower, List.flatMap_cons, hexByte, List.cons_append, List.nil_append,
      List.mem_cons] at hc
    rcases hc with rfl | rfl | hc
    · exact hexDigit_mem _ (by omega)
    · exact hexDigit_mem _ (Nat.mod_lt _ (by norm_num))
    · exact ih (fun x hx => hl x (List.mem_cons_of_mem _ hx)) c (by
        simpa [bytesToHexLower] using hc)

/-! ### Order lemmas for the byte-list comparison -/

theorem byteLexLeB_total : ∀ a b : List Nat, byteLexLeB a b = true ∨ byteLexLeB b a = true
  | [], _ => Or.inl rfl
  | _ :: _, [] => Or.inr rfl
  | a :: as, b :: bs => by
    simp only [byteLexLeB]
    rcases Nat.lt_trichotomy a b with h | h | h
    · simp [h]
    · subst h
      simpa [Nat.lt_irrefl] using byteLexLeB_total as bs
    · simp [h, Nat.lt_asymm h]

theorem byteLexLeB_antisymm :
    ∀ a b : List Nat, byteLexLeB a b = true → byteLexLeB b a = true → a = b
  | [], [], _, _ => rfl
  | [], _ :: _, _, hba => by simp [byteLexLeB] at hba
  | _ :: _, [], hab, _ => by simp [byteLexLeB] at hab
  | a :: as, b :: bs, hab, hba => by
    simp only [byteLexLeB] at hab hba
    rcases Nat.lt_trichotomy a b with h | h | h
    · simp [h, Nat.lt_asymm h] at hba
    · subst h
      simp only [Nat.lt_irrefl, if_false] at hab hba
      exact congrArg _ (byteLexLeB_antisymm as bs hab hba)
    · simp [h, Nat.lt_asymm h] at hab

theorem byteLexLeB_trans :
    ∀ a b c : List Nat, byteLexLeB a b = true → byteLexLeB b c = true → byteLexLeB a c = true
  | [], _, _, _, _ => rfl
  | _ :: _, [], _, hab, _ => by simp [byteLexLeB] at hab
  | _ :: _, _ :: _, [], _, hbc => by simp [byteLexLeB] at hbc
  | a :: as, b :: bs, c :: cs, hab, hbc => by
    simp only [byteLexLeB] at hab hbc ⊢
    rcases Nat.lt_trichotomy a b with h1 | h1 | h1
    · rcases Nat.lt_trichotomy b c with h2 | h2 | h2
      · simp [Nat.lt_trans h1 h2]
      · subst h2; simp [h1]
      · simp [h2, Nat.lt_asymm h2] at hbc
    · subst h1
      rcases Nat.lt_trichotomy a c with h2 | h2 | h2
      · simp [h2]
      · subst h2
        simp only [Nat.lt_irrefl, if_false] at hab hbc ⊢
        exact byteLexLeB_trans as bs cs hab hbc
      · simp [h2, Nat.lt_asymm h2] at hbc
    · simp [h1, Nat.lt_asymm h1] at hab

instance : IsTotal (List Nat) byteLexLe := ⟨byteLexLeB_total⟩

instance : IsTrans (List Nat) byteLexLe := ⟨byteLexLeB_trans⟩

instance : IsAntisymm (List Nat) byteLexLe := ⟨byteLexLeB_antisymm⟩

/-! ## Order lemmas for the string and byte-list comparisons -/

theorem char_toNat_inj {a b : Char} (h : a.toNat = b.toNat) : a = b := by
  cases a; cases b
  simp only [Char.toNat] at h
  congr 1
  exact UInt32.toNat.inj h

theorem charListLeB_total : ∀ a b : List Char, charListLeB a b = true ∨ charListLeB b a = true
  | [], _ => Or.inl rfl
  | _ :: _, [] => Or.inr rfl
  | a :: as, b :: bs => by
    simp only [charListLeB]
    rcases Nat.lt_trichotomy a.toNat b.toNat with h | h | h
    · simp [h]
    · simp only [h, Nat.lt_irrefl, if_false]
      simpa using charListLeB_total as bs
    · simp [h, Nat.lt_asymm h]

theorem charListLeB_antisymm :
    ∀ a b : List Char, charListLeB a b = true → charListLeB b a = true → a = b
  | [], [], _, _ => rfl
  | [], _ :: _, _, hba => by simp [charListLeB] at hba
  | _ :: _, [], hab, _ => by simp [charListLeB] at hab
  | a :: as, b :: bs, hab, hba => by
    simp only [charListLeB] at hab hba
    rcases Nat.lt_trichotomy a.toNat b.toNat with h | h | h
    · simp [h, Nat.lt_asymm h] at hba
    · have : a = b := char_toNat_inj h
      subst this
      simp only [Nat.lt_irrefl, if_false] at hab hba
      exact congrArg _ (charListLeB_antisymm as bs hab hba)
    · simp [h, Nat.lt_asymm h] at hab

theorem charListLeB_trans :
    ∀ a b c : List Char, charListLeB a b = true → charListLeB b c = true →
      charListLeB a c = true
  | [], _, _, _, _ => rfl
  | _ :: _, [], _, hab, _ => by simp [charListLeB] at hab
  | _ :: _, _ :: _, [], _, hbc => by simp [charListLeB] at hbc
  | a :: as, b :: bs, c :: cs, hab, hbc => by
    simp only [charListLeB] at hab hbc ⊢
    rcases Nat.lt_trichotomy a.toNat b.toNat with h1 | h1 | h1
    · rcases Nat.lt_trichotomy b.toNat c.toNat with h2 | h2 | h2
      · simp [Nat.lt_trans h1 h2]
      · have : b = c := char_toNat_inj h2
        subst this
        simp [h1]
      · simp [h2, Nat.lt_asymm h2] at hbc
    · have : a = b := char_toNat_inj h1
      subst this
      rcases Nat.lt_trichotomy a.toNat c.toNat with h2 | h2 | h2
      · simp [h2]
      · have : a = c := char_toNat_inj h2
        subst this
        simp only [Nat.lt_irrefl, if_false] at hab hbc ⊢
        exact charListLeB_trans as bs cs hab hbc
      · simp [h2, Nat.lt_asymm h2] at hbc
    · simp [h1, Nat.lt_asymm h1] at hab

theorem charListLtB_asymm :
    ∀ a b : List Char, charListLtB a b = true → charListLtB b a = true → False
  | [], [], hab, _ => by simp [charListLtB] at hab
  | [], _ :: _, _, hba => by simp [charListLtB] at hba
  | _ :: _, [], hab, _ => by simp [charListLtB] at hab
  | a :: as, b :: bs, hab, hba => by
    simp only [charListLtB] at hab hba
    rcases Nat.lt_trichotomy a.toNat b.toNat with h | h | h
    · simp [h, Nat.lt_asymm h] at hba
    · simp only [h, Nat.lt_irrefl, if_false] at hab hba
      exact charListLtB_asymm as bs hab hba
    · simp [h, Nat.lt_asymm h] at hab

theorem charListLtB_of_le_ne :
    ∀ a b : List Char, charListLeB a b = true → a ≠ b → charListLtB a b = true
  | [], [], _, hne => absurd rfl hne
  | [], _ :: _, _, _ => rfl
  | _ :: _, [], hab, _ => by simp [charListLeB] at hab
  | a :: as, b :: bs, hab, hne => by
    simp only [charListLeB] at hab
    simp only [charListLtB]
    rcases Nat.lt_trichotomy a.toNat b.toNat with h | h | h
    · simp [h]
    · have : a = b := char_toNat_inj h
      subst this
      simp only [Nat.lt_irrefl, if_false] at hab ⊢
      exact charListLtB_of_le_ne as bs hab (fun h => hne (congrArg _ h))
    · simp [h, Nat.lt_asymm h] at hab

theorem string_eq_of_data {s t : String} (h : s.data = t.data) : s = t := by
  cases s; cases t
  exact congrArg String.mk h

instance : IsTotal String strLe := ⟨fun s t => charListLeB_total s.data t.data⟩

instance : IsTrans String strLe := ⟨fun s t u => charListLeB_trans s.data t.data u.data⟩

instance : IsTotal (String × Except String String) entryLe :=
  ⟨fun p q => charListLeB_total p.1.data q.1.data⟩

instance : IsTrans (String × Except String String) entryLe :=
  ⟨fun p q u => charListLeB_trans p.1.data q.1.data u.1.data⟩

instance : IsAntisymm (String × Except String String) entryLt :=
  ⟨fun p q hpq hqp => (charListLtB_asymm p.1.data q.1.data hpq hqp).elim⟩

theorem entryLt_of_entryLe_ne {p q : String × Except String String}
    (hle : entryLe p q) (hne : p.1 ≠ q.1) : entryLt p q :=
  charListLtB_of_le_ne p.1.data q.1.data hle fun h => hne (string_eq_of_data h)

/-! ## Determinism of the key sort on entries with distinct keys -/

theorem sorted_entryLt_of_le_nodup :
    ∀ l : List (String × Except String String), List.Sorted entryLe l →
      (l.map Prod.fst).Nodup → List.Sorted entryLt l := by
  intro l
  induction l with
  | nil => intro _ _; exact List.sorted_nil
  | cons p t ih =>
    intro hs hn
    rw [List.sorted_cons] at hs ⊢
    simp only [List.map_cons, List.nodup_cons] at hn
    refine ⟨fun q hq => ?_, ih hs.2 hn.2⟩
    exact entryLt_of_entryLe_ne (hs.1 q hq)
      (fun h => hn.1 (h ▸ List.mem_map_of_mem Prod.fst hq))

theorem insertionSort_entries_eq {l₁ l₂ : List (String × Except String String)}
    (h : l₁.Perm l₂) (hn : (l₁.map Prod.fst).Nodup) :
    List.insertionSort entryLe l₁ = List.insertionSort entryLe l₂ := by
  have hp : (List.insertionSort entryLe l₁).Perm (List.insertionSort entryLe l₂) :=
    (List.perm_insertionSort _ _).trans (h.trans (List.perm_insertionSort _ _).symm)
  have hn₁ : ((List.insertionSort entryLe l₁).map Prod.fst).Nodup :=
    (((List.perm_insertionSort entryLe l₁).map Prod.fst).nodup_iff).mpr hn
  have hn₂ : ((List.insertionSort entryLe l₂).map Prod.fst).Nodup :=
    ((hp.map Prod.fst).nodup_iff).mp hn₁
  exact List.eq_of_perm_of_sorted hp
    (sorted_entryLt_of_le_nodup _ (List.sorted_insertionSort _ _) hn₁)
    (sorted_entryLt_of_le_nodup _ (List.sorted_insertionSort _ _) hn₂)

theorem renderObj_eq_of_perm {l₁ l₂ : List (String × Except String String)}
    (h : l₁.Perm l₂) (hn : (l₁.map Prod.fst).Nodup) : renderObj l₁ = renderObj l₂ := by
  unfold renderObj
  rw [insertionSort_entries_eq h hn]

/-! ## Marshalling respects `JEquiv` -/

theorem marshalPairs_eq_map :
    ∀ l : List (String × JValue), marshalPairs l = l.map fun p => (p.1, canonicalMarshal p.2)
  | [] => rfl
  | (k, v) :: t => by rw [marshalPairs, List.map_cons, marshalPairs_eq_map t]

theorem marshalList_eq_map : ∀ l : List JValue, marshalList l = l.map canonicalMarshal
  | [] => rfl
  | v :: t => by rw [marshalList, List.map_cons, marshalList_eq_map t]

theorem marshalPairs_fst (l : List (String × JValue)) :
    (marshalPairs l).map Prod.fst = l.map Prod.fst := by
  rw [marshalPairs_eq_map, List.map_map]
  rfl

mutual

theorem jequiv_marshal : ∀ {v w : JValue}, JEquiv v w →
    canonicalMarshal v = canonicalMarshal w
  | _, _, @JEquiv.obj l₁ lmid l₂ hperm hpairs hnd => by
    have hmid := jequivPairs_marshal hpairs
    have hp : (marshalPairs l₁).Perm (marshalPairs lmid) := by
      rw [marshalPairs_eq_map, marshalPairs_eq_map]
      exact hperm.map _
    rw [hmid] at hp
    have hkeys : ((marshalPairs l₁).map Prod.fst).Nodup := by
      rw [marshalPairs_fst]
      exact hnd
    simp only [canonicalMarshal]
    exact renderObj_eq_of_perm hp hkeys
  | _, _, .arr hlist => by
    have h := jequivList_marshal hlist
    simp only [canonicalMarshal]
    rw [h]
  | _, _, .str s => rfl
  | _, _, .num s => rfl
  | _, _, .bool b => rfl
  | _, _, .null => rfl

theorem jequivPairs_marshal : ∀ {l₁ l₂ : List (String × JValue)}, JEquivPairs l₁ l₂ →
    marshalPairs l₁ = marshalPairs l₂
  | _, _, .nil => rfl
  | _, _, .cons hv ht => by
    simp only [marshalPairs]
    rw [jequiv_marshal hv, jequivPairs_marshal ht]

theorem jequivList_marshal : ∀ {l₁ l₂ : List JValue}, JEquivList l₁ l₂ →
    marshalList l₁ = marshalList l₂
  | _, _, .nil => rfl
  | _, _, .cons hv ht => by
    simp only [marshalList]
    rw [jequiv_marshal hv, jequivList_marshal ht]

end

/-! ## Success characterization of the canonicalizer -/

theorem perm_all_eq {α : Type} {l₁ l₂ : List α} (h : l₁.Perm l₂) (p : α → Bool) :
    l₁.all p = l₂.all p :=
  Bool.eq_iff_iff.mpr (by
    simp only [List.all_eq_true]
    exact ⟨fun H x hx => H x (h.mem_iff.mpr hx), fun H x hx => H x (h.mem_iff.mp hx)⟩)

theorem collectObjEntries_isOk :
    ∀ l : List (String × Except String String),
      (collectObjEntries l).isOk = l.all fun p => p.2.isOk
  | [] => rfl
  | (_, .error e) :: t => by simp [collectObjEntries, Except.isOk, Except.toBool]
  | (k, .ok s) :: t => by
    have ih := collectObjEntries_isOk t
    simp only [collectObjEntries, List.all_cons]
    cases h : collectObjEntries t with
    | error e =>
      rw [h] at ih
      rw [← ih]
      simp [Except.isOk, Except.toBool]
    | ok r =>
      rw [h] at ih
      rw [← ih]
      simp [Except.isOk, Except.toBool]

theorem collectArrEntries_isOk :
    ∀ l : List (Except String String), (collectArrEntries l).isOk = l.all Except.isOk
  | [] => rfl
  | .error e :: t => by simp [collectArrEntries, Except.isOk, Except.toBool]
  | .ok s :: t => by
    have ih := collectArrEntries_isOk t
    simp only [collectArrEntries, List.all_cons]
    cases h : collectArrEntries t with
    | error e =>
      rw [h] at ih
      rw [← ih]
      simp [Except.isOk, Except.toBool]
    | ok r =>
      rw [h] at ih
      rw [← ih]
      simp [Except.isOk, Except.toBool]

theorem renderObj_isOk (l : List (String × Except String String)) :
    (renderObj l).isOk = l.all fun p => p.2.isOk := by
  unfold renderObj
  rw [← perm_all_eq (List.perm_insertionSort entryLe l), ← collectObjEntries_isOk]
  cases h : collectObjEntries (List.insertionSort entryLe l) <;> simp [h, Except.isOk, Except.toBool]

theorem renderArr_isOk (l : List (Except String String)) :
    (renderArr l).isOk = l.all Except.isOk := by
  unfold renderArr
  rw [← collectArrEntries_isOk]
  cases h : collectArrEntries l <;> simp [h, Except.isOk, Except.toBool]

mutual

theorem marshal_isOk : ∀ v : JValue, (canonicalMarshal v).isOk = allNumbersValid v
  | .obj kvs => by
    simp only [canonicalMarshal, allNumbersValid]
    rw [renderObj_isOk]
    exact marshalPairs_allOk kvs
  | .arr vs => by
    simp only [canonicalMarshal, allNumbersValid]
    rw [renderArr_isOk]
    exact marshalList_allOk vs
  | .str s => rfl
  | .num s => by
    simp only [canonicalMarshal, allNumbersValid]
    cases h : isValidNumber s <;> simp [h, Except.isOk, Except.toBool]
  | .bool b => by cases b <;> rfl
  | .null => rfl

theorem marshalPairs_allOk : ∀ l : List (String × JValue),
    ((marshalPairs l).all fun p => p.2.isOk) = allNumbersValidPairs l
  | [] => rfl
  | (k, v) :: t => by
    simp only [marshalPairs, List.all_cons, allNumbersValidPairs]
    rw [marshal_isOk v, marshalPairs_allOk t]

theorem marshalList_allOk : ∀ l : List JValue,
    ((marshalList l).all Except.isOk) = allNumbersValidList l
  | [] => rfl
  | v :: t => by
    simp only [marshalList, List.all_cons, allNumbersValidList]
    rw [marshal_isOk v, marshalList_allOk t]

end

/-! ## Sorted-list determinism for the Merkle digest sort -/

theorem insertionSort_byteLex_eq {l₁ l₂ : List (List Nat)} (h : l₁.Perm l₂) :
    List.insertionSort byteLexLe l₁ = List.insertionSort byteLexLe l₂ :=
  List.eq_of_perm_of_sorted
    ((List.perm_insertionSort _ _).trans (h.trans (List.perm_insertionSort _ _).symm))
    (List.sorted_insertionSort _ _) (List.sorted_insertionSort _ _)

/-! ## Whitespace-freeness of the canonical output -/

theorem mem_joinComma :
    ∀ (parts : List String) (c : Char), c ∈ (joinComma parts).data →
      c = ',' ∨ ∃ p ∈ parts, c ∈ p.data
  | [], c, h => by simp [joinComma] at h
  | [x], c, h => Or.inr ⟨x, List.mem_singleton_self x, h⟩
  | x :: y :: t, c, h => by
    simp only [joinComma, String.data_append] at h
    rcases List.mem_append.mp h with h1 | h2
    · rcases List.mem_append.mp h1 with hx | hcomma
      · exact Or.inr ⟨x, List.mem_cons_self _ _, hx⟩
      · left
        simpa using hcomma
    · rcases mem_joinComma (y :: t) c h2 with hc | ⟨p, hp, hcp⟩
      · exact Or.inl hc
      · exact Or.inr ⟨p, List.mem_cons_of_mem _ hp, hcp⟩

theorem hexLowerChars_not_ws : ∀ c ∈ hexLowerChars, c ∉ wsChars := by decide

theorem hexDigit_not_ws (n : Nat) (hn : n < 16) : hexDigit n ∉ wsChars :=
  hexLowerChars_not_ws _ (hexDigit_mem n hn)

theorem not_mem_wsChars {c : Char}
    (h1 : c ≠ ' ') (h2 : c ≠ '\t') (h3 : c ≠ '\n') (h4 : c ≠ '\r') : c ∉ wsChars := by
  intro hw
  simp only [wsChars, List.mem_cons, List.not_mem_nil, or_false] at hw
  rcases hw with hw | hw | hw | hw
  · exact h1 hw
  · exact h2 hw
  · exact h3 hw
  · exact h4 hw

theorem escapeChar_not_ws (c c' : Char) (hc : c ≠ ' ') (h : c' ∈ escapeChar c) :
    c' ∉ wsChars := by
  unfold escapeChar at h
  split_ifs at h with h1 h2 h3 h4 h5 h6 h7 h8 <;>
    simp only [List.mem_cons, List.not_mem_nil, or_false] at h
  · rcases h with rfl | rfl <;> decide
  · rcases h with rfl | rfl <;> decide
  · rcases h with rfl | rfl <;> decide
  · rcases h with rfl | rfl <;> decide
  · rcases h with rfl | rfl <;> decide
  · rcases h with rfl | rfl | rfl | rfl | rfl | rfl
    · decide
    · decide
    · decide
    · decide
    · exact hexDigit_not_ws _ (by omega)
    · exact hexDigit_not_ws _ (Nat.mod_lt _ (by norm_num))
  · rcases h with rfl | rfl | rfl | rfl | rfl | rfl
    · decide
    · decide
    · decide
    · decide
    · rcases h7 with rfl | rfl | rfl <;> decide
    · rcases h7 with rfl | rfl | rfl <;> decide
  · rcases h with rfl | rfl | rfl | rfl | rfl | rfl
    · decide
    · decide
    · decide
    · decide
    · decide
    · exact hexDigit_not_ws _ (Nat.mod_lt _ (by norm_num))
  · subst h
    exact not_mem_wsChars hc h5 h3 h4

theorem goQuote_not_ws (s : String) (hs : ∀ c ∈ s.data, c ≠ ' ') :
    ∀ c ∈ (goQuote s).data, c ∉ wsChars := by
  intro c hc
  simp only [goQuote] at hc
  rcases List.mem_cons.mp hc with rfl | hc
  · decide
  · rcases List.mem_append.mp hc with hc | hc
    · obtain ⟨a, ha, hca⟩ := List.mem_flatMap.mp hc
      exact escapeChar_not_ws a c (hs a ha) hca
    · have : c = '"' := by simpa using hc
      subst this
      decide

theorem skipDigits_mem_cases :
    ∀ (l : List Char) (c : Char), c ∈ l → isDigitChar c = true ∨ c ∈ skipDigits l
  | [], c, h => absurd h (List.not_mem_nil c)
  | d :: t, c, h => by
    by_cases hd : isDigitChar d
    · rcases List.mem_cons.mp h with rfl | ht
      · exact Or.inl hd
      · rcases skipDigits_mem_cases t c ht with h1 | h2
        · exact Or.inl h1
        · right
          rw [skipDigits]
          simpa [hd] using h2
    · right
      rw [skipDigits]
      simpa [hd] using h

theorem skipDigits_eq_nil_all :
    ∀ l : List Char, skipDigits l = [] → ∀ c ∈ l, isDigitChar c = true
  | [], _, c, h => absurd h (List.not_mem_nil c)
  | d :: t, hnil, c, h => by
    rw [skipDigits] at hnil
    by_cases hd : isDigitChar d
    · simp only [hd, if_true] at hnil
      rcases List.mem_cons.mp h with rfl | ht
      · exact hd
      · exact skipDigits_eq_nil_all t hnil c ht
    · simp [hd] at hnil

theorem isNumChar_of_digit {c : Char} (h : isDigitChar c = true) : isNumChar c = true := by
  simp [isNumChar, h]

theorem isValidNumExp_chars :
    ∀ l : List Char, isValidNumExp l = true → ∀ c ∈ l, isNumChar c = true := by
  intro l hv c hc
  match l, hv, hc with
  | [], _, hc => exact absurd hc (List.not_mem_nil c)
  | [x], hv, _ => simp [isValidNumExp] at hv
  | e :: c2 :: rest, hv, hc =>
    simp only [isValidNumExp] at hv
    split_ifs at hv with he hsign
    · rcases List.mem_cons.mp hc with rfl | hc
      · rcases he with rfl | rfl <;> decide
      · cases rest with
        | nil => simp at hv
        | cons r rs =>
          rcases List.mem_cons.mp hc with rfl | hc
          · rcases hsign with rfl | rfl <;> decide
          · have := skipDigits_eq_nil_all _ (List.isEmpty_iff.mp hv) c hc
            exact isNumChar_of_digit this
    · rcases List.mem_cons.mp hc with rfl | hc
      · rcases he with rfl | rfl <;> decide
      · have := skipDigits_eq_nil_all _ (List.isEmpty_iff.mp hv) c hc
        exact isNumChar_of_digit this

theorem isValidNumExp_chars_skip (l : List Char) (hv : isValidNumExp (skipDigits l) = true) :
    ∀ c ∈ l, isNumChar c = true := by
  intro c hc
  rcases skipDigits_mem_cases l c hc with h | h
  · exact isNumChar_of_digit h
  · exact isValidNumExp_chars _ hv c h

theorem isValidNumFrac_chars (l : List Char) (hv : isValidNumFrac l = true) :
    ∀ c ∈ l, isNumChar c = true := by
  intro c hc
  rw [isValidNumFrac.eq_def] at hv
  split at hv
  · rename_i d rest
    split_ifs at hv with hd
    · rcases List.mem_cons.mp hc with rfl | hc
      · decide
      · rcases List.mem_cons.mp hc with rfl | hc
        · exact isNumChar_of_digit hd
        · exact isValidNumExp_chars_skip rest hv c hc
    · exact isValidNumExp_chars _ hv c hc
  · exact isValidNumExp_chars _ hv c hc

theorem isValidNumInt_chars (l : List Char) (hv : isValidNumInt l = true) :
    ∀ c ∈ l, isNumChar c = true := by
  intro c hc
  rw [isValidNumInt.eq_def] at hv
  split at hv
  · exact absurd hc (List.not_mem_nil c)
  · rename_i c0 rest
    split_ifs at hv with h0 hd
    · rcases List.mem_cons.mp hc with rfl | hc
      · subst h0; decide
      · exact isValidNumFrac_chars rest hv c hc
    · rcases List.mem_cons.mp hc with rfl | hc
      · exact isNumChar_of_digit hd
      · rcases skipDigits_mem_cases rest c hc with h | h
        · exact isNumChar_of_digit h
        · exact isValidNumFrac_chars _ hv c h

theorem isValidNumber_chars (s : String) (h : isValidNumber s = true) :
    ∀ c ∈ s.data, isNumChar c = true := by
  unfold isValidNumber at h
  intro c hc
  revert h hc
  generalize s.data = l
  intro h hc
  split at h
  · exact absurd hc (List.not_mem_nil c)
  · rename_i rest
    rcases List.mem_cons.mp hc with rfl | hc
    · decide
    · exact isValidNumInt_chars rest h c hc
  · exact isValidNumInt_chars _ h c hc

theorem isNumChar_not_ws (c : Char) (h : isNumChar c = true) : c ∉ wsChars := by
  intro hw
  simp only [wsChars, List.mem_cons, List.not_mem_nil, or_false] at hw
  rcases hw with hw | hw | hw | hw <;> (subst hw; simp [isNumChar, isDigitChar] at h)

theorem all_ne_space {s : String} (h : (s.data.all fun c => c != ' ') = true) :
    ∀ c ∈ s.data, c ≠ ' ' := fun c hc => by
  have := List.all_eq_true.mp h c hc
  simpa using this

theorem collectObjEntries_ok_mem :
    ∀ (l : List (String × Except String String)) (parts : List String),
      collectObjEntries l = .ok parts → ∀ q ∈ parts,
        ∃ k sv, (k, Except.ok sv) ∈ l ∧ q = goQuote k ++ ":" ++ sv
  | [], parts, h => by
    intro q hq
    rw [← Except.ok.inj h] at hq
    exact absurd hq (List.not_mem_nil q)
  | (k0, .error e) :: t, parts, h => by simp [collectObjEntries] at h
  | (k0, .ok s0) :: t, parts, h => by
    simp only [collectObjEntries] at h
    cases ht : collectObjEntries t with
    | error e =>
      rw [ht] at h
      exact absurd h (by simp)
    | ok rest =>
      rw [ht] at h
      obtain rfl := Except.ok.inj h
      intro q hq
      rcases List.mem_cons.mp hq with rfl | hq
      · exact ⟨k0, s0, List.mem_cons_self _ _, rfl⟩
      · obtain ⟨k, sv, hmem, rfl⟩ := collectObjEntries_ok_mem t rest ht q hq
        exact ⟨k, sv, List.mem_cons_of_mem _ hmem, rfl⟩

theorem collectArrEntries_ok_mem :
    ∀ (l : List (Except String String)) (parts : List String),
      collectArrEntries l = .ok parts → ∀ q ∈ parts, Except.ok q ∈ l
  | [], parts, h => by
    intro q hq
    rw [← Except.ok.inj h] at hq
    exact absurd hq (List.not_mem_nil q)
  | .error e :: t, parts, h => by simp [collectArrEntries] at h
  | .ok s0 :: t, parts, h => by
    simp only [collectArrEntries] at h
    cases ht : collectArrEntries t with
    | error e =>
      rw [ht] at h
      exact absurd h (by simp)
    | ok rest =>
      rw [ht] at h
      obtain rfl := Except.ok.inj h
      intro q hq
      rcases List.mem_cons.mp hq with rfl | hq
      · exact List.mem_cons_self _ _
      · exact List.mem_cons_of_mem _ (collectArrEntries_ok_mem t rest ht q hq)

mutual

theorem marshal_no_ws : ∀ (v : JValue) (s : String), noSpaceStrings v = true →
    canonicalMarshal v = .ok s → ∀ c ∈ s.data, c ∉ wsChars
  | .obj kvs, s, hns, hm => by
    simp only [canonicalMarshal] at hm
    unfold renderObj at hm
    cases hce : collectObjEntries (List.insertionSort entryLe (marshalPairs kvs)) with
    | error e =>
      rw [hce] at hm
      exact absurd hm (by simp)
    | ok parts =>
      rw [hce] at hm
      have hseq := Except.ok.inj hm
      subst hseq
      intro c hc
      rw [String.data_append, String.data_append] at hc
      rcases List.mem_append.mp hc with hc1 | hc2
      · rcases List.mem_append.mp hc1 with hb | hj
        · have hcb : c = '\x7b' := by simpa using hb
          subst hcb
          decide
        · rcases mem_joinComma _ _ hj with rfl | ⟨p, hp, hcp⟩
          · decide
          · obtain ⟨k, sv, hmem, rfl⟩ := collectObjEntries_ok_mem _ _ hce p hp
            have hmem' : (k, Except.ok sv) ∈ marshalPairs kvs :=
              (List.mem_insertionSort entryLe).mp hmem
            have hkv := marshalPairs_no_ws kvs hns k (Except.ok sv) hmem'
            rw [String.data_append, String.data_append] at hcp
            rcases List.mem_append.mp hcp with hcp1 | hcp2
            · rcases List.mem_append.mp hcp1 with hq | hcolon
              · exact goQuote_not_ws k hkv.1 c hq
              · have hcc : c = ':' := by simpa using hcolon
                subst hcc
                decide
            · exact hkv.2 sv rfl c hcp2
      · have hcb : c = '\x7d' := by simpa using hc2
        subst hcb
        decide
  | .arr vs, s, hns, hm => by
    simp only [canonicalMarshal] at hm
    unfold renderArr at hm
    cases hce : collectArrEntries (marshalList vs) with
    | error e =>
      rw [hce] at hm
      exact absurd hm (by simp)
    | ok parts =>
      rw [hce] at hm
      have hseq := Except.ok.inj hm
      subst hseq
      intro c hc
      rw [String.data_append, String.data_append] at hc
      rcases List.mem_append.mp hc with hc1 | hc2
      · rcases List.mem_append.mp hc1 with hb | hj
        · have hcb : c = '[' := by simpa using hb
          subst hcb
          decide
        · rcases mem_joinComma _ _ hj with rfl | ⟨p, hp, hcp⟩
          · decide
          · have hmem : Except.ok p ∈ marshalList vs := collectArrEntries_ok_mem _ _ hce p hp
            exact marshalList_no_ws vs hns (Except.ok p) hmem p rfl c hcp
      · have hcb : c = ']' := by simpa using hc2
        subst hcb
        decide
  | .str s0, s, hns, hm => by
    simp only [canonicalMarshal] at hm
    have hseq := Except.ok.inj hm
    subst hseq
    simp only [noSpaceStrings] at hns
    exact goQuote_not_ws s0 (all_ne_space hns)
  | .num s0, s, _, hm => by
    simp only [canonicalMarshal] at hm
    split_ifs at hm with hv
    · have hseq := Except.ok.inj hm
      subst hseq
      intro c hc
      exact isNumChar_not_ws c (isValidNumber_chars s0 hv c hc)
  | .bool b, s, _, hm => by
    simp only [canonicalMarshal] at hm
    cases b with
    | true =>
      have hseq := Except.ok.inj hm
      subst hseq
      decide
    | false =>
      have hseq := Except.ok.inj hm
      subst hseq
      decide
  | .null, s, _, hm => by
    simp only [canonicalMarshal] at hm
    have hseq := Except.ok.inj hm
    subst hseq
    decide

theorem marshalPairs_no_ws : ∀ (l : List (String × JValue)), noSpaceStringsPairs l = true →
    ∀ k r, (k, r) ∈ marshalPairs l →
      (∀ c ∈ k.data, c ≠ ' ') ∧ ∀ sv, r = .ok sv → ∀ c ∈ sv.data, c ∉ wsChars
  | [], _, k, r, h => absurd h (by simp [marshalPairs])
  | (k0, v0) :: t, hns, k, r, h => by
    simp only [marshalPairs, List.mem_cons] at h
    simp only [noSpaceStringsPairs, Bool.and_eq_true] at hns
    rcases h with heq | ht
    · rw [Prod.mk.injEq] at heq
      obtain ⟨rfl, rfl⟩ := heq
      exact ⟨all_ne_space hns.1.1, fun sv hsv => marshal_no_ws v0 sv hns.1.2 hsv⟩
    · exact marshalPairs_no_ws t hns.2 k r ht

theorem marshalList_no_ws : ∀ (l : List JValue), noSpaceStringsList l = true →
    ∀ r, r ∈ marshalList l → ∀ sv, r = .ok sv → ∀ c ∈ sv.data, c ∉ wsChars
  | [], _, r, h => absurd h (by simp [marshalList])
  | v0 :: t, hns, r, h => by
    simp only [marshalList, List.mem_cons] at h
    simp only [noSpaceStringsList, Bool.and_eq_true] at hns
    rcases h with rfl | ht
    · exact fun sv hsv => marshal_no_ws v0 sv hns.1 hsv
    · exact marshalList_no_ws t hns.2 r ht

end

/-! ## Claim theorems -/

/-- C1: for 32-byte `dataDigest` and `attachmentRoot`, the record fingerprint
is SHA-256 of the raw 64-byte concatenation `dataDigest || attachmentRoot`
(not of hex text), and the value exposed to the caller is exactly the 64
lowercase hexadecimal characters of that digest. -/
theorem claim1_fingerprint (d r : List Nat) (hd : d.length = 32) (hr : r.length = 32) :
    recordHash d r = sha256 (d ++ r) ∧
    (d ++ r).length = 64 ∧
    recordHashHex d r = bytesToHexLower (sha256 (d ++ r)) ∧
    (recordHashHex d r).length = 64 ∧
    ∀ c ∈ (recordHashHex d r).data, c ∈ hexLowerChars := by
  refine ⟨rfl, by simp [hd, hr], rfl, ?_, ?_⟩
  · rw [recordHashHex, bytesToHexLower_length, recordHash, sha256Bytes, sha256_length]
  · exact bytesToHexLower_mem _ (sha256_bytes_lt _)

theorem claim1_fingerprint_witness :
    ((List.replicate 32 0 : List Nat).length = 32 ∧
      (List.replicate 32 1 : List Nat).length = 32) ∧
    (recordHash (List.replicate 32 0) (List.replicate 32 1) =
        sha256 (List.replicate 32 0 ++ List.replicate 32 1) ∧
      (List.replicate 32 0 ++ List.replicate 32 1 : List Nat).length = 64 ∧
      recordHashHex (List.replicate 32 0) (List.replicate 32 1) =
        bytesToHexLower (sha256 (List.replicate 32 0 ++ List.replicate 32 1)) ∧
      (recordHashHex (List.replicate 32 0) (List.replicate 32 1)).length = 64 ∧
      ∀ c ∈ (recordHashHex (List.replicate 32 0) (List.replicate 32 1)).data,
        c ∈ hexLowerChars) :=
  ⟨⟨by decide, by decide⟩, claim1_fingerprint _ _ (by decide) (by decide)⟩

/-- C2: the canonical output is byte-identical under any permutation of the
insertion order of mapping entries, at every nesting level (`JEquiv`), with
mapping keys unique as in a Go map (the proof rests on keys being emitted in
lexicographic order and sequence order being preserved); moreover the output
holds no insignificant whitespace: whenever no string scalar or key contains a
space character (whitespace inside strings being significant), no JSON
whitespace character occurs in the output at all — the control characters
among them are always escaped. -/
theorem claim2_canonical_invariant :
    (∀ v w : JValue, JEquiv v w → canonicalMarshal v = canonicalMarshal w) ∧
    (∀ (v : JValue) (s : String), noSpaceStrings v = true →
      canonicalMarshal v = .ok s → ∀ c ∈ s.data, c ∉ wsChars) :=
  ⟨fun _ _ h => jequiv_marshal h, fun v s hns hm => marshal_no_ws v s hns hm⟩

theorem claim2_canonical_invariant_witness :
    JEquiv (.obj [("b", .null), ("a", .str "x")]) (.obj [("a", .str "x"), ("b", .null)]) ∧
    canonicalMarshal (.obj [("b", .null), ("a", .str "x")]) =
      canonicalMarshal (.obj [("a", .str "x"), ("b", .null)]) ∧
    noSpaceStrings (.obj [("b", .null), ("a", .str "x")]) = true ∧
    canonicalMarshal (.obj [("b", .null), ("a", .str "x")]) =
      .ok "\x7b\"a\":\"x\",\"b\":null\x7d" ∧
    ∀ c ∈ ("\x7b\"a\":\"x\",\"b\":null\x7d" : String).data, c ∉ wsChars := by
  have hj : JEquiv (.obj [("b", .null), ("a", .str "x")])
      (.obj [("a", .str "x"), ("b", .null)]) :=
    JEquiv.obj (List.Perm.swap ("a", JValue.str "x") ("b", JValue.null) [])
      (JEquivPairs.cons (JEquiv.str "x") (JEquivPairs.cons JEquiv.null JEquivPairs.nil))
      (by decide)
  refine ⟨hj, claim2_canonical_invariant.1 _ _ hj, by decide, by decide, ?_⟩
  exact claim2_canonical_invariant.2 (.obj [("b", .null), ("a", .str "x")])
    "\x7b\"a\":\"x\",\"b\":null\x7d" (by decide) (by decide)

/-- C3: `merkleRoot` returns identical digests on any two lists of 32-byte
digests that are permutations of each other. -/
theorem claim3_merkleRoot_perm (l₁ l₂ : List (List Nat))
    (h32 : ∀ d ∈ l₁, d.length = 32) (hp : l₁.Perm l₂) :
    merkleRoot l₁ = merkleRoot l₂ := by
  cases l₁ with
  | nil => rw [← hp.nil_eq]
  | cons a t =>
    cases l₂ with
    | nil => exact absurd hp.symm.nil_eq (by simp)
    | cons b t₂ =>
      simp only [merkleRoot]
      rw [insertionSort_byteLex_eq hp]

theorem claim3_merkleRoot_perm_witness :
    (∀ d ∈ [List.replicate 32 1, List.replicate 32 0], d.length = 32) ∧
    merkleRoot [List.replicate 32 1, List.replicate 32 0] =
      merkleRoot [List.replicate 32 0, List.replicate 32 1] :=
  ⟨by decide, claim3_merkleRoot_perm _ _ (by decide)
    (List.Perm.swap (List.replicate 32 0) (List.replicate 32 1) [])⟩

/-- C4 counterexample: on the one-element digest set the `for len(level) > 1`
loop never runs, so `merkleRoot({d})` returns `d` unchanged — it does not
equal `hash(d || d)`. -/
theorem claim4_counterexample :
    merkleRoot [List.replicate 32 0] = List.replicate 32 0 ∧
    merkleRoot [List.replicate 32 0] ≠
      sha256Bytes (List.replicate 32 0 ++ List.replicate 32 0) :=
  ⟨rfl, by decide⟩

/-- C4 amended: for a single digest `merkleRoot({d}) = d`; the odd-node
duplication rule applies only inside levels of two or more digests. -/
theorem claim4_amended (d : List Nat) : merkleRoot [d] = d := rfl

/-- C5: the pipeline does not canonicalize number formatting — `UseNumber`
decoding plus the `default` marshal case preserve the source text of a number
verbatim, so `1234.500` and `1234.5` canonicalize to different bytes (and so
to different fingerprints), contradicting the documented rendering rule. -/
theorem claim5_number_text_preserved :
    canonicalMarshal (.obj [("income", .num "1234.500")]) = .ok "\x7b\"income\":1234.500\x7d" ∧
    canonicalMarshal (.obj [("income", .num "1234.5")]) = .ok "\x7b\"income\":1234.5\x7d" ∧
    canonicalMarshal (.obj [("income", .num "1234.500")]) ≠
      canonicalMarshal (.obj [("income", .num "1234.5")]) :=
  ⟨by decide, by decide, by decide⟩

/-- C6 counterexample: `json.Number` is not among the explicitly supported
cases of the `canonicalMarshal` type switch, yet the function silently encodes
it through the `default` fallback instead of failing. -/
theorem claim6_counterexample :
    explicitlySupported (.num "7") = false ∧ canonicalMarshal (.num "7") = .ok "7" :=
  ⟨rfl, by decide⟩

/-- C6 amended: `canonicalMarshal` succeeds exactly when every number literal
in the value satisfies the JSON number grammar; values of unsupported types
are silently encoded by the default fallback rather than failing, and when a
number literal is invalid an error is surfaced with no output produced. -/
theorem claim6_amended (v : JValue) : (canonicalMarshal v).isOk = allNumbersValid v :=
  marshal_isOk v

/-- C7: a delivered message is matched exactly when its payload decodes to an
object whose `recordHashHex` field holds the target hex text case-insensitively
(structured encoding), or its raw bytes hex-render to the target text
case-insensitively (raw encoding); a payload that fails structured parsing is
not an error — it falls through to the raw check and is discarded when neither
matches. -/
theorem claim7_match_conditions (parsed : Option (List (String × JValue)))
    (contents : List Nat) (target : String) :
    ((handleMessage parsed contents target).isSome ↔
      (∃ o, parsed = some o ∧ structuredMatch o target = true) ∨
        rawMatch contents target = true) ∧
    handleMessage none contents target =
      (if rawMatch contents target then some .raw else none) := by
  refine ⟨?_, rfl⟩
  cases parsed with
  | none =>
    cases h : rawMatch contents target <;> simp [handleMessage, h]
  | some o =>
    cases hs : structuredMatch o target <;> cases h : rawMatch contents target <;>
      simp [handleMessage, hs, h]

/-- C8 counterexample: after a mid-subscription stream failure with no match,
the matcher produces exactly the `TimedOut` outcome (exit 3), the same as for
an error-free timeout — the stream failure is not surfaced distinctly. -/
theorem claim8_counterexample :
    runMatcher "" [.streamErr] = .timedOut ∧ runMatcher "" [] = .timedOut :=
  ⟨rfl, rfl⟩

/-- C8 amended: stream errors reported after a successful subscription are
only logged — removing them from the delivered-event trace never changes the
matcher outcome, so an errored stream with no match ends in the same
`TimedOut` outcome; only a failure of the initial `Subscribe` call is
surfaced as a distinct outcome. -/
theorem claim8_amended :
    (∀ target events,
      runMatcher target (events.filter isMsgEvent) = runMatcher target events) ∧
    (∀ target events, matcherOutcome false target events = .subscribeFailed) ∧
    MatcherOutcome.subscribeFailed ≠ MatcherOutcome.timedOut := by
  refine ⟨?_, fun _ _ => rfl, by decide⟩
  intro target events
  induction events with
  | nil => rfl
  | cons e t ih =>
    cases e with
    | streamErr =>
      simp only [List.filter_cons, isMsgEvent, if_false, Bool.false_eq_true, cond_false]
      exact ih.trans rfl
    | msg p c s =>
      simp only [List.filter_cons, isMsgEvent, if_true, cond_true]
      simp only [runMatcher, runMatcherCount] at ih ⊢
      cases h : handleMessage p c target <;> simp [h, ih]

/-- C9: as soon as a delivered message matches, the matcher cancels the
subscription and stops delivery: on any trace whose first matching message
follows a non-matching prefix `pre`, the outcome is `found` with that
message's sequence number and exactly `pre.length + 1` events are delivered,
regardless of the pending tail (so an arbitrarily long tail — e.g. 1,000,000
messages — is not drained), while every message delivered before the match
was examined. -/
theorem claim9_cancellation (target : String) (pre post : List LogEvent)
    (parsed : Option (List (String × JValue))) (contents : List Nat) (seq : Nat)
    (k : MatchKind) (hm : handleMessage parsed contents target = some k)
    (hpre : ∀ p c s, LogEvent.msg p c s ∈ pre → handleMessage p c target = none) :
    runMatcherCount target (pre ++ LogEvent.msg parsed contents seq :: post) =
      (.found seq k, pre.length + 1) := by
  induction pre with
  | nil => simp [runMatcherCount, hm]
  | cons e t ih =>
    cases e with
    | streamErr =>
      simp only [List.cons_append, runMatcherCount, List.append_eq]
      rw [ih (fun p c s h => hpre p c s (List.mem_cons_of_mem _ h))]
      simp
    | msg p c s =>
      have h0 : handleMessage p c target = none := hpre p c s (List.mem_cons_self _ _)
      simp only [List.cons_append, runMatcherCount, h0, List.append_eq]
      rw [ih (fun p' c' s' h => hpre p' c' s' (List.mem_cons_of_mem _ h))]
      simp

theorem claim9_cancellation_witness :
    handleMessage none [0] "00" = some .raw ∧
    (∀ p c s, LogEvent.msg p c s ∈ [LogEvent.msg none [1] 5] →
      handleMessage p c "00" = none) ∧
    runMatcherCount "00"
        ([LogEvent.msg none [1] 5] ++ LogEvent.msg none [0] 7 ::
          [LogEvent.msg none [] 9, LogEvent.msg none [] 10, LogEvent.streamErr]) =
      (.found 7 .raw, 2) := by
  have h1 : handleMessage none [0] "00" = some .raw := by decide
  have h2 : ∀ p c s, LogEvent.msg p c s ∈ [LogEvent.msg none [1] 5] →
      handleMessage p c "00" = none := by
    intro p c s h
    simp only [List.mem_singleton, LogEvent.msg.injEq] at h
    obtain ⟨rfl, rfl, rfl⟩ := h
    decide
  exact ⟨h1, h2, claim9_cancellation "00" _ _ _ _ _ _ h1 h2⟩

/-- C10: a message matches under the structured encoding only if its payload
is a JSON object whose top-level field named exactly `recordHashHex` is a
JSON string equal case-insensitively to the target hex text; under any other
field name, nesting, or a non-string value the structured check fails and the
message can only match via the raw-bytes hex comparison. -/
theorem claim10_structured_exact_field (o : List (String × JValue)) (contents : List Nat)
    (target : String) :
    (handleMessage (some o) contents target = some .json ↔
      ∃ s, lookupVal o "recordHashHex" = some (.str s) ∧ equalFoldASCII s target = true) ∧
    (handleMessage (some o) contents target = some .raw ↔
      structuredMatch o target = false ∧ rawMatch contents target = true) := by
  have hs : structuredMatch o target = true ↔
      ∃ s, lookupVal o "recordHashHex" = some (.str s) ∧ equalFoldASCII s target = true := by
    unfold structuredMatch
    cases hl : lookupVal o "recordHashHex" with
    | none => simp
    | some v => cases v <;> simp
  constructor
  · rw [← hs]
    cases hst : structuredMatch o target <;> cases hr : rawMatch contents target <;>
      simp [handleMessage, hst, hr]
  · cases hst : structuredMatch o target <;> cases hr : rawMatch contents target <;>
      simp [handleMessage, hst, hr]

end SurveyCTOProver
